import Mathlib

/-!
Verification development for the integer-index kernels of this repository
(width detection, index transposition, index bounds checking) and the
atomic shared-pointer shim.

The kernel implementations themselves (`DetectUIntWidth`, `DetectIntWidth`,
`TransposeInts`, `IndexBoundsCheck` from `arrow/util/int_util.h`) are not
present in the visible sources (only their test file is), so they are
modelled from the specification; the atomic shared-pointer shim
(`arrow/util/atomic_shared_ptr.h`) is embedded from its source.
-/

set_option maxRecDepth 4000

namespace ArrowIntUtil

/-- Pair every element of a values buffer with its validity flag.
A missing bitmap (`none`) means every element is valid; a present bitmap is
consumed bit-by-bit alongside the values (`zip` semantics). -/
def pairsOf {α : Type} (values : List α) (validity : Option (List Bool)) :
    List (α × Bool) :=
  match validity with
  | none => values.map (fun v => (v, true))
  | some bm => values.zip bm

/-- The valid (non-null) elements of a batch, in order. -/
def validValues {α : Type} (values : List α) (validity : Option (List Bool)) :
    List α :=
  (pairsOf values validity).filterMap (fun p => if p.2 then some p.1 else none)

/-- Modelled from the spec (§4.1, the `int_util.h` implementation is not in
the visible sources): evaluate widths in ascending order {1,2,4,8} starting
from `min_width` and return the first that satisfies the range constraint
`fits`; width 8 is the total fallback. -/
def smallestWidth (min_width : Nat) (fits : Nat → Bool) : Nat :=
  if min_width ≤ 1 && fits 1 then 1
  else if min_width ≤ 2 && fits 2 then 2
  else if min_width ≤ 4 && fits 4 then 4
  else 8

/-- Unsigned width `w` represents `[0, 2^(8w)-1]`: does the running maximum
`m` fit? -/
def uintFits (w : Nat) (m : Nat) : Bool :=
  decide (m ≤ 2 ^ (8 * w) - 1)

/-- Signed width `w` represents `[-2^(8w-1), 2^(8w-1)-1]`: do the running
minimum `mn` and maximum `mx` fit? -/
def intFits (w : Nat) (mn mx : Int) : Bool :=
  decide (-(2 ^ (8 * w - 1) : Int) ≤ mn) && decide (mx ≤ (2 ^ (8 * w - 1) : Int) - 1)

/-- Modelled from the spec (§4.1, `DetectUIntWidth` of `int_util.h` is not in
the visible sources): running maximum over valid elements only (starting at
0), then the smallest width in {1,2,4,8}, floored at `min_width`, whose
unsigned range covers it. -/
def DetectUIntWidth (values : List Nat) (validity : Option (List Bool))
    (min_width : Nat) : Nat :=
  smallestWidth min_width (fun w => uintFits w ((validValues values validity).foldl max 0))

/-- Modelled from the spec (§4.1, `DetectIntWidth` of `int_util.h` is not in
the visible sources): running minimum and maximum over valid elements only
(both starting at 0), then the smallest width in {1,2,4,8}, floored at
`min_width`, whose signed range covers both. -/
def DetectIntWidth (values : List Int) (validity : Option (List Bool))
    (min_width : Nat) : Nat :=
  smallestWidth min_width (fun w =>
    intFits w ((validValues values validity).foldl min 0)
      ((validValues values validity).foldl max 0))

/-- Modelled from the spec (the two-argument overload of `DetectUIntWidth`
exercised by the tests is not in the visible sources): no validity bitmap is
taken, every element contributes to the running maximum. -/
def DetectUIntWidthAllValid (values : List Nat) (min_width : Nat) : Nat :=
  smallestWidth min_width (fun w => uintFits w (values.foldl max 0))

/-- Modelled from the spec (the two-argument overload of `DetectIntWidth`
exercised by the tests is not in the visible sources): no validity bitmap is
taken, every element contributes to the running extrema. -/
def DetectIntWidthAllValid (values : List Int) (min_width : Nat) : Nat :=
  smallestWidth min_width (fun w => intFits w (values.foldl min 0) (values.foldl max 0))

/-- Modelled from the spec (§4.2, `TransposeInts` of `int_util.h` is not in
the visible sources): for each position `i` in `[0, length)`, treat `src[i]`
as a non-negative index into `table` and write `dest[i] = table[src[i]]`;
no validity awareness. -/
def TransposeInts (src : List Int) (length : Nat) (table : List Int) : List Int :=
  (List.range length).map (fun i => table.getD (src.getD i 0).toNat 0)

/-- The single error kind of the bounds checker. -/
inductive IndexError : Type
  | outOfBounds : IndexError
deriving DecidableEq

/-- An index array descriptor: element width in bytes, signedness, the
numeric values, and an optional validity bitmap. -/
structure IndexArray : Type where
  width : Nat
  signed : Bool
  values : List Int
  validity : Option (List Bool)

/-- `0 ≤ x < upper` as a boolean, comparing the signed numeric value. -/
def inRange (upper : Nat) (x : Int) : Bool :=
  decide (0 ≤ x) && decide (x < (upper : Int))

/-- Tier 1 of the chunk check: a fast numeric min/max reduction over the
chunk's raw values, ignoring the validity bitmap entirely. -/
def tierOne (chunk : List (Int × Bool)) (upper : Nat) : Bool :=
  match chunk.map Prod.fst with
  | [] => true
  | v :: vs => decide (0 ≤ vs.foldl min v) && decide (vs.foldl max v < (upper : Int))

/-- Tier 2 of the chunk check: every numerically offending element of the
chunk must in fact be null. -/
def tierTwo (chunk : List (Int × Bool)) (upper : Nat) : Bool :=
  chunk.all (fun p => inRange upper p.1 || !p.2)

/-- A chunk passes when its unconstrained numeric extremes already satisfy
the bound, or else when the validity bitmap cures every offender. -/
def chunkPasses (chunk : List (Int × Bool)) (upper : Nat) : Bool :=
  tierOne chunk upper || tierTwo chunk upper

/-- Split a list into chunks of 64 elements (fuelled recursion; the fuel is
always instantiated with the list length). -/
def chunksAux {α : Type} : Nat → List α → List (List α)
  | _, [] => []
  | 0, _ :: _ => []
  | fuel + 1, v :: l => ((v :: l).take 64) :: chunksAux fuel ((v :: l).drop 64)

/-- Split a list into chunks of 64 elements. -/
def chunks {α : Type} (l : List α) : List (List α) :=
  chunksAux l.length l

/-- Modelled from the spec (§4.3, `IndexBoundsCheck` of `int_util.h` is not
in the visible sources): process the array in fixed-size chunks of 64 with
the two-tier check; succeed iff every chunk passes. -/
def IndexBoundsCheck (arr : IndexArray) (upper : Nat) : Except IndexError Unit :=
  if (chunks (pairsOf arr.values arr.validity)).all (fun c => chunkPasses c upper)
  then Except.ok ()
  else Except.error IndexError.outOfBounds

end ArrowIntUtil

namespace ArrowAtomicSharedPtr

/-- The fallback branch of `atomic_load` (`atomic_shared_ptr.h` lines 35-38):
`return *p;` — the location's current shared-pointer value, modelled as the
state `p` of the location, is returned unchanged. -/
def atomic_load {α : Type} (p : α) : α × α :=
  (p, p)

/-- The fallback branch of `atomic_store` (`atomic_shared_ptr.h` lines
40-43): `*p = r;` — the location's state becomes `r`. -/
def atomic_store {α : Type} (_p : α) (r : α) : α :=
  r

/-- The native branch of `atomic_load` (`atomic_shared_ptr.h` lines 47-50):
`std::atomic_load(p)` reads the location's current value; in a
single-threaded execution this is the same state transformation. -/
def std_atomic_load {α : Type} (p : α) : α × α :=
  (p, p)

/-- The native branch of `atomic_store` (`atomic_shared_ptr.h` lines 52-55):
`std::atomic_store(p, std::move(r))` writes `r` to the location; in a
single-threaded execution this is the same state transformation. -/
def std_atomic_store {α : Type} (_p : α) (r : α) : α :=
  r

end ArrowAtomicSharedPtr

namespace ArrowIntUtil

/-- A left fold of `max` is bounded above iff the seed and every element are. -/
lemma foldl_max_le_iff {α : Type} [LinearOrder α] (vs : List α) (a B : α) :
    vs.foldl max a ≤ B ↔ a ≤ B ∧ ∀ v ∈ vs, v ≤ B := by
  induction vs generalizing a with
  | nil => simp
  | cons x xs ih =>
    simp only [List.foldl_cons, ih, max_le_iff, List.mem_cons]
    constructor
    · rintro ⟨⟨ha, hx⟩, hrest⟩
      exact ⟨ha, fun v hv => hv.elim (fun h => h ▸ hx) (hrest v)⟩
    · rintro ⟨ha, hall⟩
      exact ⟨⟨ha, hall x (Or.inl rfl)⟩, fun v hv => hall v (Or.inr hv)⟩

/-- A left fold of `max` is strictly bounded above iff the seed and every
element are. -/
lemma foldl_max_lt_iff {α : Type} [LinearOrder α] (vs : List α) (a B : α) :
    vs.foldl max a < B ↔ a < B ∧ ∀ v ∈ vs, v < B := by
  induction vs generalizing a with
  | nil => simp
  | cons x xs ih =>
    simp only [List.foldl_cons, ih, max_lt_iff, List.mem_cons]
    constructor
    · rintro ⟨⟨ha, hx⟩, hrest⟩
      exact ⟨ha, fun v hv => hv.elim (fun h => h ▸ hx) (hrest v)⟩
    · rintro ⟨ha, hall⟩
      exact ⟨⟨ha, hall x (Or.inl rfl)⟩, fun v hv => hall v (Or.inr hv)⟩

/-- A left fold of `min` is bounded below iff the seed and every element are. -/
lemma le_foldl_min_iff {α : Type} [LinearOrder α] (vs : List α) (a c : α) :
    c ≤ vs.foldl min a ↔ c ≤ a ∧ ∀ v ∈ vs, c ≤ v := by
  induction vs generalizing a with
  | nil => simp
  | cons x xs ih =>
    simp only [List.foldl_cons, ih, le_min_iff, List.mem_cons]
    constructor
    · rintro ⟨⟨ha, hx⟩, hrest⟩
      exact ⟨ha, fun v hv => hv.elim (fun h => h ▸ hx) (hrest v)⟩
    · rintro ⟨ha, hall⟩
      exact ⟨⟨ha, hall x (Or.inl rfl)⟩, fun v hv => hall v (Or.inr hv)⟩

/-- `all` over the 64-chunks of a list is `all` over the list, as long as
the fuel covers the length. -/
lemma chunksAux_all {α : Type} (q : α → Bool) :
    ∀ (fuel : Nat) (l : List α), l.length ≤ fuel →
      ((chunksAux fuel l).all (fun c => c.all q)) = l.all q := by
  intro fuel
  induction fuel with
  | zero =>
    intro l hl
    cases l with
    | nil => rfl
    | cons v l => simp at hl
  | succ fuel ih =>
    intro l hl
    cases l with
    | nil => rfl
    | cons v l =>
      have hlen : ((v :: l).drop 64).length ≤ fuel := by
        simp only [List.length_drop]
        omega
      calc ((chunksAux (fuel + 1) (v :: l)).all (fun c => c.all q))
          = (((v :: l).take 64).all q &&
              ((chunksAux fuel ((v :: l).drop 64)).all (fun c => c.all q))) := by
            simp [chunksAux]
        _ = (((v :: l).take 64).all q && ((v :: l).drop 64).all q) := by
            rw [ih _ hlen]
        _ = (((v :: l).take 64) ++ ((v :: l).drop 64)).all q := by
            rw [List.all_append]
        _ = (v :: l).all q := by rw [List.take_append_drop]

/-- `all` over the chunks of a list is `all` over the list. -/
lemma chunks_all {α : Type} (q : α → Bool) (l : List α) :
    ((chunks l).all (fun c => c.all q)) = l.all q :=
  chunksAux_all q l.length l le_rfl

/-- When tier 1 passes a chunk, every element of the chunk is in range, so
tier 2 passes it as well. -/
lemma tierOne_imp_tierTwo (chunk : List (Int × Bool)) (upper : Nat)
    (h : tierOne chunk upper = true) : tierTwo chunk upper = true := by
  cases chunk with
  | nil => rfl
  | cons p rest =>
    simp only [tierOne, List.map_cons, Bool.and_eq_true, decide_eq_true_eq] at h
    obtain ⟨hmin, hmax⟩ := h
    rw [le_foldl_min_iff] at hmin
    rw [foldl_max_lt_iff] at hmax
    simp only [tierTwo, List.all_eq_true, List.mem_cons]
    rintro ⟨x, b⟩ hx
    have hin : inRange upper x = true := by
      simp only [inRange, Bool.and_eq_true, decide_eq_true_eq]
      rcases hx with hx | hx
      · cases hx
        exact ⟨hmin.1, hmax.1⟩
      · have hmem : x ∈ rest.map Prod.fst := List.mem_map_of_mem Prod.fst hx
        exact ⟨hmin.2 x hmem, hmax.2 x hmem⟩
    simp [hin]

/-- A chunk passes exactly when the validity bitmap cures every numeric
offender: tier 1 is a pure fast path. -/
lemma chunkPasses_eq (chunk : List (Int × Bool)) (upper : Nat) :
    chunkPasses chunk upper = tierTwo chunk upper := by
  unfold chunkPasses
  cases h : tierOne chunk upper with
  | false => simp
  | true => simp [tierOne_imp_tierTwo chunk upper h]

/-- Membership in the valid elements of a batch, in terms of the paired
values-and-validity view. -/
lemma mem_validValues_iff {α : Type} (values : List α)
    (validity : Option (List Bool)) (x : α) :
    x ∈ validValues values validity ↔
      ∃ p ∈ pairsOf values validity, p.2 = true ∧ p.1 = x := by
  simp only [validValues, List.mem_filterMap]
  constructor
  · rintro ⟨p, hp, hf⟩
    cases hb : p.2 with
    | false => rw [hb] at hf; simp at hf
    | true =>
      rw [hb] at hf
      simp only [if_true] at hf
      simp only [Option.some.injEq] at hf
      exact ⟨p, hp, hb, hf⟩
  · rintro ⟨p, hp, hb, hx⟩
    exact ⟨p, hp, by simp [hb, hx]⟩

/-- Every valid element of a batch is an element of its values buffer. -/
lemma validValues_subset {α : Type} (values : List α)
    (validity : Option (List Bool)) (x : α)
    (hx : x ∈ validValues values validity) : x ∈ values := by
  rw [mem_validValues_iff] at hx
  obtain ⟨p, hp, _, hx⟩ := hx
  cases validity with
  | none =>
    simp only [pairsOf, List.mem_map] at hp
    obtain ⟨v, hv, hpv⟩ := hp
    rw [← hx, ← hpv]
    exact hv
  | some bm =>
    simp only [pairsOf] at hp
    rw [← hx]
    rcases p with ⟨a, b⟩
    exact (List.of_mem_zip hp).1

/-- The bounds check succeeds exactly when every valid element lies in
`[0, upper)`: the chunked two-tier algorithm realises the flat contract. -/
lemma boundsCheck_ok_iff (arr : IndexArray) (upper : Nat) :
    IndexBoundsCheck arr upper = Except.ok () ↔
      ∀ x ∈ validValues arr.values arr.validity, 0 ≤ x ∧ x < (upper : Int) := by
  unfold IndexBoundsCheck
  have hall : ((chunks (pairsOf arr.values arr.validity)).all
      (fun c => chunkPasses c upper)) =
      ((pairsOf arr.values arr.validity).all
        (fun p => inRange upper p.1 || !p.2)) := by
    have hcong : ((chunks (pairsOf arr.values arr.validity)).all
        (fun c => chunkPasses c upper)) =
        ((chunks (pairsOf arr.values arr.validity)).all
          (fun c => c.all (fun p => inRange upper p.1 || !p.2))) := by
      simp only [chunkPasses_eq, tierTwo]
    rw [hcong, chunks_all]
  rw [hall]
  constructor
  · intro h x hx
    by_cases hcond : ((pairsOf arr.values arr.validity).all
        (fun p => inRange upper p.1 || !p.2)) = true
    · rw [List.all_eq_true] at hcond
      rw [mem_validValues_iff] at hx
      obtain ⟨p, hp, hb, hpx⟩ := hx
      have := hcond p hp
      rw [hb] at this
      simp only [Bool.not_true, Bool.or_false] at this
      rw [hpx] at this
      simpa [inRange] using this
    · rw [if_neg hcond] at h
      exact absurd h (by simp)
  · intro h
    rw [if_pos]
    rw [List.all_eq_true]
    rintro ⟨x, b⟩ hp
    cases hb : b with
    | false => simp
    | true =>
      have hx : x ∈ validValues arr.values arr.validity := by
        rw [mem_validValues_iff]
        exact ⟨(x, b), hp, hb, rfl⟩
      have := h x hx
      simp [inRange, this.1, this.2]

/-- The bounds check has exactly two outcomes; failing is not succeeding. -/
lemma boundsCheck_error_iff (arr : IndexArray) (upper : Nat) :
    IndexBoundsCheck arr upper = Except.error IndexError.outOfBounds ↔
      ¬ ∀ x ∈ validValues arr.values arr.validity, 0 ≤ x ∧ x < (upper : Int) := by
  rw [← boundsCheck_ok_iff]
  unfold IndexBoundsCheck
  by_cases h : ((chunks (pairsOf arr.values arr.validity)).all
      (fun c => chunkPasses c upper)) = true
  · simp [h]
  · simp [h]

/-- The detected width is always one of {1,2,4,8}. -/
lemma smallestWidth_mem (m : Nat) (fits : Nat → Bool) :
    smallestWidth m fits = 1 ∨ smallestWidth m fits = 2 ∨
      smallestWidth m fits = 4 ∨ smallestWidth m fits = 8 := by
  unfold smallestWidth
  split_ifs <;> simp

/-- The detected width is never below the caller's minimum width. -/
lemma smallestWidth_ge (m : Nat) (fits : Nat → Bool)
    (hm : m = 1 ∨ m = 2 ∨ m = 4 ∨ m = 8) :
    m ≤ smallestWidth m fits := by
  unfold smallestWidth
  split_ifs with h1 h2 h4
  · simp only [Bool.and_eq_true, decide_eq_true_eq] at h1
    exact h1.1
  · simp only [Bool.and_eq_true, decide_eq_true_eq] at h2
    exact h2.1
  · simp only [Bool.and_eq_true, decide_eq_true_eq] at h4
    exact h4.1
  · rcases hm with rfl | rfl | rfl | rfl <;> omega

/-- The detected width satisfies the range constraint (width 8 being the
total fallback). -/
lemma smallestWidth_fits (m : Nat) (fits : Nat → Bool) (h8 : fits 8 = true) :
    fits (smallestWidth m fits) = true := by
  unfold smallestWidth
  split_ifs with h1 h2 h4
  · simp only [Bool.and_eq_true] at h1
    exact h1.2
  · simp only [Bool.and_eq_true] at h2
    exact h2.2
  · simp only [Bool.and_eq_true] at h4
    exact h4.2
  · exact h8

/-- The detected width is the smallest width in {1,2,4,8} at or above the
minimum that satisfies the range constraint. -/
lemma smallestWidth_min (m : Nat) (fits : Nat → Bool) (w : Nat)
    (hw : w = 1 ∨ w = 2 ∨ w = 4 ∨ w = 8) (hmw : m ≤ w) (hfw : fits w = true) :
    smallestWidth m fits ≤ w := by
  unfold smallestWidth
  split_ifs with h1 h2 h4
  · rcases hw with rfl | rfl | rfl | rfl <;> omega
  · rcases hw with rfl | rfl | rfl | rfl
    · exact absurd (by simp [hmw, hfw]) h1
    · omega
    · omega
    · omega
  · rcases hw with rfl | rfl | rfl | rfl
    · exact absurd (by simp [hmw, hfw]) h1
    · exact absurd (by simp [hmw, hfw]) h2
    · omega
    · omega
  · rcases hw with rfl | rfl | rfl | rfl
    · exact absurd (by simp [hmw, hfw]) h1
    · exact absurd (by simp [hmw, hfw]) h2
    · exact absurd (by simp [hmw, hfw]) h4
    · omega

/-- Re-detecting with the detected width as the new minimum returns the
same width. -/
lemma smallestWidth_idem (m : Nat) (fits : Nat → Bool) :
    smallestWidth (smallestWidth m fits) fits = smallestWidth m fits := by
  have hv : smallestWidth m fits = 1 ∧ fits 1 = true ∨
      smallestWidth m fits = 2 ∧ fits 2 = true ∨
      smallestWidth m fits = 4 ∧ fits 4 = true ∨
      smallestWidth m fits = 8 := by
    unfold smallestWidth
    split_ifs with h1 h2 h4
    · exact Or.inl ⟨rfl, ((Bool.and_eq_true _ _).mp h1).2⟩
    · exact Or.inr (Or.inl ⟨rfl, ((Bool.and_eq_true _ _).mp h2).2⟩)
    · exact Or.inr (Or.inr (Or.inl ⟨rfl, ((Bool.and_eq_true _ _).mp h4).2⟩))
    · exact Or.inr (Or.inr (Or.inr rfl))
  rcases hv with ⟨hv, hf⟩ | ⟨hv, hf⟩ | ⟨hv, hf⟩ | hv
  · rw [hv]; simp [smallestWidth, hf]
  · rw [hv]; simp [smallestWidth, hf]
  · rw [hv]; simp [smallestWidth, hf]
  · rw [hv]; simp [smallestWidth]

/-- For a range constraint monotone in the width, detecting with minimum
`m` is detecting with minimum 1 and then flooring at `m`. -/
lemma smallestWidth_floor (m : Nat) (fits : Nat → Bool)
    (hm : m = 1 ∨ m = 2 ∨ m = 4 ∨ m = 8)
    (mono : ∀ a b, a ≤ b → fits a = true → fits b = true) :
    smallestWidth m fits = max m (smallestWidth 1 fits) := by
  have h12 : fits 1 = true → fits 2 = true := mono 1 2 (by omega)
  have h24 : fits 2 = true → fits 4 = true := mono 2 4 (by omega)
  rcases hm with rfl | rfl | rfl | rfl <;>
    cases hf1 : fits 1 <;> cases hf2 : fits 2 <;> cases hf4 : fits 4 <;>
      simp_all [smallestWidth]

/-- The unsigned range constraint is monotone in the width. -/
lemma uintFits_mono (v : Nat) (a b : Nat) (hab : a ≤ b)
    (h : uintFits a v = true) : uintFits b v = true := by
  simp only [uintFits, decide_eq_true_eq] at h ⊢
  have : 2 ^ (8 * a) ≤ 2 ^ (8 * b) :=
    Nat.pow_le_pow_right (by omega) (by omega)
  omega

/-- The signed range constraint is monotone in the width. -/
lemma intFits_mono (mn mx : Int) (a b : Nat) (hab : a ≤ b)
    (h : intFits a mn mx = true) : intFits b mn mx = true := by
  simp only [intFits, Bool.and_eq_true, decide_eq_true_eq] at h ⊢
  have hpow : (2 : Int) ^ (8 * a - 1) ≤ 2 ^ (8 * b - 1) :=
    pow_le_pow_right₀ (by norm_num) (by omega)
  exact ⟨le_trans (by linarith) h.1, le_trans h.2 (by linarith)⟩

/-- The running-maximum summary fits a width iff every element does. -/
lemma uintFits_iff (vs : List Nat) (w : Nat) :
    uintFits w (vs.foldl max 0) = true ↔ ∀ v ∈ vs, v ≤ 2 ^ (8 * w) - 1 := by
  simp [uintFits, foldl_max_le_iff]

/-- The running min/max summary fits a width iff every element does. -/
lemma intFits_iff (vs : List Int) (w : Nat) :
    intFits w (vs.foldl min 0) (vs.foldl max 0) = true ↔
      ∀ v ∈ vs, -(2 ^ (8 * w - 1) : Int) ≤ v ∧ v ≤ (2 ^ (8 * w - 1) : Int) - 1 := by
  have hp : (0 : Int) < 2 ^ (8 * w - 1) := pow_pos (by norm_num) _
  simp only [intFits, Bool.and_eq_true, decide_eq_true_eq, le_foldl_min_iff,
    foldl_max_le_iff]
  constructor
  · rintro ⟨⟨_, hmin⟩, _, hmax⟩ v hv
    exact ⟨hmin v hv, hmax v hv⟩
  · intro h
    refine ⟨⟨by linarith, fun v hv => (h v hv).1⟩,
      ⟨by linarith, fun v hv => (h v hv).2⟩⟩

/-- With no validity bitmap, every element is valid. -/
lemma validValues_none {α : Type} (values : List α) :
    validValues values none = values := by
  induction values with
  | nil => rfl
  | cons v vs ih =>
    simp only [validValues, pairsOf, List.map_cons, List.filterMap_cons] at ih ⊢
    simp only [if_true]
    rw [ih]

/-- With an all-false validity bitmap, no element is valid. -/
lemma validValues_all_false {α : Type} (values : List α) :
    validValues values (some (List.replicate values.length false)) = [] := by
  induction values with
  | nil => rfl
  | cons v vs ih =>
    simp only [validValues, pairsOf, List.length_cons, List.replicate_succ,
      List.zip_cons_cons, List.filterMap_cons] at ih ⊢
    simpa using ih

/-- Zero fits every unsigned width. -/
lemma uintFits_zero (w : Nat) : uintFits w 0 = true := by
  simp [uintFits]

/-- The zero summary fits every signed width. -/
lemma intFits_zero (w : Nat) : intFits w 0 0 = true := by
  have hp : (0 : Int) < 2 ^ (8 * w - 1) := pow_pos (by norm_num) _
  simp only [intFits, Bool.and_eq_true, decide_eq_true_eq]
  constructor <;> linarith

/-- With a range constraint that holds everywhere, detection returns the
minimum width itself. -/
lemma smallestWidth_of_true (m : Nat) (fits : Nat → Bool)
    (hm : m = 1 ∨ m = 2 ∨ m = 4 ∨ m = 8)
    (h : ∀ w, fits w = true) : smallestWidth m fits = m := by
  rcases hm with rfl | rfl | rfl | rfl <;> simp [smallestWidth, h]

/-- The bounds check has exactly the two outcomes of its error taxonomy. -/
lemma boundsCheck_cases (arr : IndexArray) (upper : Nat) :
    IndexBoundsCheck arr upper = Except.ok () ∨
      IndexBoundsCheck arr upper = Except.error IndexError.outOfBounds := by
  unfold IndexBoundsCheck
  split_ifs <;> simp

/-- C1: `IndexBoundsCheck` succeeds iff every valid (non-null) element `x`
satisfies `0 ≤ x < upper_limit`; a valid negative element always fails
regardless of the limit; and an element at a null position never causes
failure regardless of its stored bit pattern (any values buffer with the
same valid elements checks identically). -/
theorem c1_bounds_check_iff_valid_in_range (arr : IndexArray) (upper : Nat) :
    (IndexBoundsCheck arr upper = Except.ok () ↔
      ∀ x ∈ validValues arr.values arr.validity, 0 ≤ x ∧ x < (upper : Int)) ∧
    ((∃ x ∈ validValues arr.values arr.validity, x < 0) →
      IndexBoundsCheck arr upper = Except.error IndexError.outOfBounds) ∧
    (∀ values2 : List Int,
      validValues values2 arr.validity = validValues arr.values arr.validity →
      IndexBoundsCheck ⟨arr.width, arr.signed, values2, arr.validity⟩ upper =
        IndexBoundsCheck arr upper) := by
  refine ⟨boundsCheck_ok_iff arr upper, ?_, ?_⟩
  · rintro ⟨x, hx, hneg⟩
    rw [boundsCheck_error_iff]
    intro hall
    have hx0 := (hall x hx).1
    linarith
  · intro values2 hsame
    have h1 := boundsCheck_ok_iff ⟨arr.width, arr.signed, values2, arr.validity⟩ upper
    have h2 := boundsCheck_ok_iff arr upper
    simp only at h1
    rw [hsame] at h1
    rcases boundsCheck_cases ⟨arr.width, arr.signed, values2, arr.validity⟩ upper with
      hc | hc <;> rcases boundsCheck_cases arr upper with hc' | hc'
    · rw [hc, hc']
    · exact absurd (h2.mpr (h1.mp hc)) (by rw [hc']; simp)
    · exact absurd (h1.mpr (h2.mp hc')) (by rw [hc]; simp)
    · rw [hc, hc']

/-- C2: width detection returns the smallest width in {1,2,4,8}, no smaller
than `min_width`, such that every valid element fits the corresponding
unsigned (resp. signed two's-complement) range, with exact range boundaries
(`-0x80` yields width 1, `-0x81` yields width 2). -/
theorem c2_detect_width_smallest (values : List Nat) (svalues : List Int)
    (validity svalidity : Option (List Bool)) (m : Nat)
    (hm : m = 1 ∨ m = 2 ∨ m = 4 ∨ m = 8)
    (hbound : ∀ v ∈ values, v < 2 ^ 64)
    (hsbound : ∀ v ∈ svalues, -(2 ^ 63 : Int) ≤ v ∧ v < 2 ^ 63) :
    ((DetectUIntWidth values validity m = 1 ∨ DetectUIntWidth values validity m = 2 ∨
        DetectUIntWidth values validity m = 4 ∨ DetectUIntWidth values validity m = 8) ∧
      m ≤ DetectUIntWidth values validity m ∧
      (∀ v ∈ validValues values validity,
        v ≤ 2 ^ (8 * DetectUIntWidth values validity m) - 1) ∧
      (∀ w2, (w2 = 1 ∨ w2 = 2 ∨ w2 = 4 ∨ w2 = 8) → m ≤ w2 →
        (∀ v ∈ validValues values validity, v ≤ 2 ^ (8 * w2) - 1) →
        DetectUIntWidth values validity m ≤ w2)) ∧
    ((DetectIntWidth svalues svalidity m = 1 ∨ DetectIntWidth svalues svalidity m = 2 ∨
        DetectIntWidth svalues svalidity m = 4 ∨ DetectIntWidth svalues svalidity m = 8) ∧
      m ≤ DetectIntWidth svalues svalidity m ∧
      (∀ v ∈ validValues svalues svalidity,
        -(2 ^ (8 * DetectIntWidth svalues svalidity m - 1) : Int) ≤ v ∧
          v ≤ (2 ^ (8 * DetectIntWidth svalues svalidity m - 1) : Int) - 1) ∧
      (∀ w2, (w2 = 1 ∨ w2 = 2 ∨ w2 = 4 ∨ w2 = 8) → m ≤ w2 →
        (∀ v ∈ validValues svalues svalidity,
          -(2 ^ (8 * w2 - 1) : Int) ≤ v ∧ v ≤ (2 ^ (8 * w2 - 1) : Int) - 1) →
        DetectIntWidth svalues svalidity m ≤ w2)) ∧
    DetectIntWidth [-0x80] none 1 = 1 ∧ DetectIntWidth [-0x81] none 1 = 2 := by
  have hufit8 : uintFits 8 ((validValues values validity).foldl max 0) = true := by
    rw [uintFits_iff]
    intro v hv
    have hvb := hbound v (validValues_subset _ _ _ hv)
    have h64 : (8 : Nat) * 8 = 64 := by norm_num
    rw [h64]
    exact Nat.le_pred_of_lt hvb
  have hsfit8 : intFits 8 ((validValues svalues svalidity).foldl min 0)
      ((validValues svalues svalidity).foldl max 0) = true := by
    rw [intFits_iff]
    intro v hv
    have hvb := hsbound v (validValues_subset _ _ _ hv)
    have h63 : (8 : Nat) * 8 - 1 = 63 := by norm_num
    rw [h63]
    have h2 := Int.lt_iff_add_one_le.mp hvb.2
    exact ⟨hvb.1, by linarith⟩
  refine ⟨⟨smallestWidth_mem m _, smallestWidth_ge m _ hm, ?_, ?_⟩,
    ⟨smallestWidth_mem m _, smallestWidth_ge m _ hm, ?_, ?_⟩, by rfl, by rfl⟩
  · rw [← uintFits_iff]
    exact smallestWidth_fits m
      (fun w => uintFits w (List.foldl max 0 (validValues values validity))) hufit8
  · intro w2 hw2 hmw2 hall
    exact smallestWidth_min m _ w2 hw2 hmw2 ((uintFits_iff _ _).mpr hall)
  · rw [← intFits_iff]
    exact smallestWidth_fits m
      (fun w => intFits w (List.foldl min 0 (validValues svalues svalidity))
        (List.foldl max 0 (validValues svalues svalidity))) hsfit8
  · intro w2 hw2 hmw2 hall
    exact smallestWidth_min m _ w2 hw2 hmw2 ((intFits_iff _ _).mpr hall)

/-- Witness for C2 at `values = [300]`, `svalues = [-200]`, no bitmaps,
`min_width = 1`. -/
theorem c2_detect_width_smallest_witness :
    ((1 : Nat) = 1 ∨ (1 : Nat) = 2 ∨ (1 : Nat) = 4 ∨ (1 : Nat) = 8) ∧
    (∀ v ∈ [(300 : Nat)], v < 2 ^ 64) ∧
    (∀ v ∈ [(-200 : Int)], -(2 ^ 63 : Int) ≤ v ∧ v < 2 ^ 63) ∧
    1 ≤ DetectUIntWidth [300] none 1 ∧ 1 ≤ DetectIntWidth [-200] none 1 :=
  ⟨by decide, by decide, by decide,
    (c2_detect_width_smallest [300] [-200] none none 1 (by decide) (by decide)
      (by decide)).1.2.1,
    (c2_detect_width_smallest [300] [-200] none none 1 (by decide) (by decide)
      (by decide)).2.1.2.1⟩

/-- C3: `TransposeInts` writes `dest[i] = table[src[i]]` at every position
`i` of `[0, length)`, treating `src[i]` as a non-negative table index, with
no validity awareness; on the literal test vectors it produces
`[2222, 4444, 6666, 1111, 4444, 3333]`. -/
theorem c3_transpose_is_table_lookup :
    (∀ (src table : List Int) (len i : Nat), i < len →
      (TransposeInts src len table).getD i 0 =
        table.getD (src.getD i 0).toNat 0) ∧
    TransposeInts [1, 3, 5, 0, 3, 2] 6 [1111, 2222, 3333, 4444, 5555, 6666, 7777] =
      [2222, 4444, 6666, 1111, 4444, 3333] := by
  constructor
  · intro src table len i hi
    unfold TransposeInts
    rw [List.getD_eq_getElem?_getD, List.getElem?_map, List.getElem?_range hi]
    rfl
  · rfl

/-- C4: on a batch of length 200 against `upper_limit = 1`, a single
out-of-range value at position 99 (resp. 199) makes the check fail, and
clearing that position's validity bit flips the result back to passing,
independently of the chunk boundaries of the 64-element chunking. -/
theorem c4_batching_null_exemption :
    (IndexBoundsCheck ⟨2, true, List.replicate 200 0, some (List.replicate 200 true)⟩ 1 =
      Except.ok ()) ∧
    (IndexBoundsCheck ⟨2, true, (List.replicate 200 (0 : Int)).set 99 1,
        some (List.replicate 200 true)⟩ 1 = Except.error IndexError.outOfBounds) ∧
    (IndexBoundsCheck ⟨2, true, (List.replicate 200 (0 : Int)).set 99 1,
        some ((List.replicate 200 true).set 99 false)⟩ 1 = Except.ok ()) ∧
    (IndexBoundsCheck ⟨2, true, ((List.replicate 200 (0 : Int)).set 99 1).set 199 1,
        some ((List.replicate 200 true).set 99 false)⟩ 1 =
      Except.error IndexError.outOfBounds) ∧
    (IndexBoundsCheck ⟨2, true, ((List.replicate 200 (0 : Int)).set 99 1).set 199 1,
        some (((List.replicate 200 true).set 99 false).set 199 false)⟩ 1 =
      Except.ok ()) :=
  ⟨rfl, rfl, rfl, rfl, rfl⟩

/-- C5: for every width `w` in {1,2,4,8}, width detection on an empty batch
or on an all-null batch returns `min_width = w` exactly. -/
theorem c5_empty_or_all_null_returns_min (m : Nat)
    (hm : m = 1 ∨ m = 2 ∨ m = 4 ∨ m = 8) :
    DetectUIntWidth [] none m = m ∧ DetectIntWidth [] none m = m ∧
    (∀ values : List Nat,
      DetectUIntWidth values (some (List.replicate values.length false)) m = m) ∧
    (∀ values : List Int,
      DetectIntWidth values (some (List.replicate values.length false)) m = m) := by
  refine ⟨?_, ?_, ?_, ?_⟩
  · exact smallestWidth_of_true m _ hm (fun w => uintFits_zero w)
  · exact smallestWidth_of_true m _ hm (fun w => intFits_zero w)
  · intro values
    unfold DetectUIntWidth
    simp only [validValues_all_false, List.foldl_nil]
    exact smallestWidth_of_true m _ hm (fun w => uintFits_zero w)
  · intro values
    unfold DetectIntWidth
    simp only [validValues_all_false, List.foldl_nil]
    exact smallestWidth_of_true m _ hm (fun w => intFits_zero w)

/-- Witness for C5 at `min_width = 4`. -/
theorem c5_empty_or_all_null_returns_min_witness :
    ((4 : Nat) = 1 ∨ (4 : Nat) = 2 ∨ (4 : Nat) = 4 ∨ (4 : Nat) = 8) ∧
    (DetectUIntWidth [] none 4 = 4 ∧ DetectIntWidth [] none 4 = 4 ∧
      (∀ values : List Nat,
        DetectUIntWidth values (some (List.replicate values.length false)) 4 = 4) ∧
      (∀ values : List Int,
        DetectIntWidth values (some (List.replicate values.length false)) 4 = 4)) :=
  ⟨by decide, c5_empty_or_all_null_returns_min 4 (by decide)⟩

/-- C6: for every signed index width and every upper limit, a valid negative
element makes the bounds check fail. -/
theorem c6_negative_index_always_fails (w upper : Nat) (values : List Int)
    (validity : Option (List Bool))
    (_hw : w = 1 ∨ w = 2 ∨ w = 4 ∨ w = 8)
    (hneg : ∃ x ∈ validValues values validity, x < 0) :
    IndexBoundsCheck ⟨w, true, values, validity⟩ upper =
      Except.error IndexError.outOfBounds := by
  rw [boundsCheck_error_iff]
  intro hall
  obtain ⟨x, hx, hxneg⟩ := hneg
  have hx0 := (hall x hx).1
  linarith

/-- Witness for C6 at width 1, values `[-1]`, `upper_limit = 1`. -/
theorem c6_negative_index_always_fails_witness :
    ((1 : Nat) = 1 ∨ (1 : Nat) = 2 ∨ (1 : Nat) = 4 ∨ (1 : Nat) = 8) ∧
    (∃ x ∈ validValues [(-1 : Int)] none, x < 0) ∧
    IndexBoundsCheck ⟨1, true, [(-1 : Int)], none⟩ 1 =
      Except.error IndexError.outOfBounds :=
  ⟨by decide, by decide,
    c6_negative_index_always_fails 1 1 [(-1 : Int)] none (by decide) (by decide)⟩

/-- C7: the bounds check is exact at the boundary: unsigned `[0,100,127]`
fails against 127 and passes against 128, `[0, 65535]` passes against
`2^16`, and any array containing a valid value `v` fails against
`upper_limit = v`. -/
theorem c7_bounds_check_boundary_exact :
    (IndexBoundsCheck ⟨1, false, [0, 100, 127], none⟩ 127 =
      Except.error IndexError.outOfBounds) ∧
    (IndexBoundsCheck ⟨1, false, [0, 100, 127], none⟩ 128 = Except.ok ()) ∧
    (IndexBoundsCheck ⟨2, false, [0, 65535], none⟩ (2 ^ 16) = Except.ok ()) ∧
    (∀ (arr : IndexArray) (v : Int), v ∈ validValues arr.values arr.validity →
      IndexBoundsCheck arr v.toNat ≠ Except.ok ()) := by
  refine ⟨by rfl, by rfl, by rfl, ?_⟩
  intro arr v hv hok
  rw [boundsCheck_ok_iff] at hok
  have h := hok v hv
  have hlt := h.2
  rw [Int.toNat_of_nonneg h.1] at hlt
  exact lt_irrefl v hlt

/-- C8: width detection is idempotent under re-application, and detection
with minimum `m` equals the maximum of `m` and detection with minimum 1. -/
theorem c8_detect_width_idempotent (values : List Nat) (svalues : List Int)
    (validity svalidity : Option (List Bool)) (m : Nat)
    (hm : m = 1 ∨ m = 2 ∨ m = 4 ∨ m = 8) :
    (DetectUIntWidth values validity (DetectUIntWidth values validity m) =
      DetectUIntWidth values validity m) ∧
    (DetectUIntWidth values validity m = max m (DetectUIntWidth values validity 1)) ∧
    (DetectIntWidth svalues svalidity (DetectIntWidth svalues svalidity m) =
      DetectIntWidth svalues svalidity m) ∧
    (DetectIntWidth svalues svalidity m = max m (DetectIntWidth svalues svalidity 1)) := by
  refine ⟨smallestWidth_idem m _, ?_, smallestWidth_idem m _, ?_⟩
  · exact smallestWidth_floor m _ hm (fun a b hab h => uintFits_mono _ a b hab h)
  · exact smallestWidth_floor m _ hm (fun a b hab h => intFits_mono _ _ a b hab h)

/-- Witness for C8 at `values = [5]`, `svalues = [-5]`, no bitmaps,
`min_width = 2`. -/
theorem c8_detect_width_idempotent_witness :
    ((2 : Nat) = 1 ∨ (2 : Nat) = 2 ∨ (2 : Nat) = 4 ∨ (2 : Nat) = 8) ∧
    ((DetectUIntWidth [5] none (DetectUIntWidth [5] none 2) =
        DetectUIntWidth [5] none 2) ∧
      (DetectUIntWidth [5] none 2 = max 2 (DetectUIntWidth [5] none 1)) ∧
      (DetectIntWidth [-5] none (DetectIntWidth [-5] none 2) =
        DetectIntWidth [-5] none 2) ∧
      (DetectIntWidth [-5] none 2 = max 2 (DetectIntWidth [-5] none 1))) :=
  ⟨by decide, c8_detect_width_idempotent [5] [-5] none none 2 (by decide)⟩

/-- C10: the two-argument overloads of width detection (no bitmap argument)
agree with the three-argument overloads given a null bitmap pointer: both
treat every element as valid. -/
theorem c10_overload_without_bitmap_equiv (values : List Nat)
    (svalues : List Int) (m : Nat) :
    DetectUIntWidthAllValid values m = DetectUIntWidth values none m ∧
    DetectIntWidthAllValid svalues m = DetectIntWidth svalues none m := by
  constructor <;>
    simp only [DetectUIntWidthAllValid, DetectUIntWidth, DetectIntWidthAllValid,
      DetectIntWidth, validValues_none]

end ArrowIntUtil

namespace ArrowAtomicSharedPtr

/-- C9: in the fallback branch, `atomic_load` returns a copy of `*p` leaving
the location unchanged and `atomic_store` assigns `r` to `*p`; the
sequential store-then-load round trip returns the stored pointer, and both
branches define the same single-threaded state transformations. -/
theorem c9_atomic_fallback_sequential (α : Type) (p r : α) :
    (atomic_load p).1 = p ∧ (atomic_load p).2 = p ∧
    atomic_store p r = r ∧
    (atomic_load (atomic_store p r)).1 = r ∧
    @atomic_load α = @std_atomic_load α ∧
    @atomic_store α = @std_atomic_store α :=
  ⟨rfl, rfl, rfl, rfl, rfl, rfl⟩

end ArrowAtomicSharedPtr
